import Mathlib

/-!
Verification of the Wikipedia Philosophy game (`wikipedia_philosophy.py`).

The development shallowly embeds the program's core: the link-validity
filter (`is_valid_link`), the parenthesis heuristic (`is_in_parentheses`),
the link extractor (`find_first_valid_links`), the URL-to-title resolution
(`get_page_title_from_url`), and the navigation loop (`navigate`), driven
by an abstract page world `fetch : Str → Option Html` standing for the
HTTP collaborator.  Text is modelled as `List Char`; the HTML tree is
modelled by the structural facts the code consumes (paragraphs of the
article body in document order, each with its rendered text and its
anchors, an anchor carrying its href, its rendered text and the result of
the italic-ancestor walk).
-/

/-- Text is modelled as a list of characters. -/
abbrev Str := List Char

/-- Class attribute `TARGET = "Philosophy"`. -/
def TARGET : Str := "Philosophy".data

/-- Class attribute `MAX_ITERATIONS = 500`. -/
def MAX_ITERATIONS : Nat := 500

/-- Class attribute `BASE_URL = "https://en.wikipedia.org"`. -/
def BASE_URL : Str := "https://en.wikipedia.org".data

/-- Python substring containment (`needle in haystack`), used for `'#cite' in href`. -/
def containsSub (needle : Str) : Str → Bool
  | [] => needle.isEmpty
  | c :: rest => needle.isPrefixOf (c :: rest) || containsSub needle rest

/-- The `invalid_prefixes` list of `is_valid_link` (lines 60-69 of the source). -/
def invalid_prefixes : List Str :=
  [ "/wiki/Help:".data,
    "/wiki/Wikipedia:".data,
    "/wiki/Special:".data,
    "/wiki/Talk:".data,
    "/wiki/File:".data,
    "/wiki/Template:".data,
    "/wiki/Category:".data,
    "/wiki/Portal:".data]

/-- `is_valid_link` (lines 48-78): the anchor's href must be non-empty (a missing or
empty href attribute is falsy in Python), must start with `/wiki/`, must not start
with one of the reserved-namespace prefixes, must not contain `#cite` and must not
start with `#`. -/
def is_valid_link (href : Str) : Bool :=
  !href.isEmpty &&
  ( "/wiki/".data).isPrefixOf href &&
  !(invalid_prefixes.any fun p => p.isPrefixOf href) &&
  !(containsSub ( "#cite".data) href) &&
  !(( "#".data).isPrefixOf href)

/-- Inner scan of the regex search for `\([^)]*L[^)]*\)`: we stand just after an
opening parenthesis; either the literal link text `L` matches here and a closing
parenthesis follows it with no closing parenthesis consumed before it, or we consume
one more non-`)` character of the leading `[^)]*` and try the next position. -/
def parenAfterOpen (L : Str) : Str → Bool
  | [] => false
  | c :: rest =>
    (L.isPrefixOf (c :: rest) && ((c :: rest).drop L.length).any (fun d => d == ')')) ||
    (!(c == ')') && parenAfterOpen L rest)

/-- Outer scan of the regex search: try every position of the text as the opening
parenthesis of the pattern. -/
def parenScan (L : Str) : Str → Bool
  | [] => false
  | c :: rest => ((c == '(') && parenAfterOpen L rest) || parenScan L rest

/-- `is_in_parentheses` (lines 80-97): walk up to the enclosing paragraph (in this
model anchors always live in a paragraph, whose rendered text is `ptext`), then
search the paragraph text for the pattern `\([^)]*` + escaped link text + `[^)]*\)`;
a match rejects the anchor. -/
def is_in_parentheses (ptext ltext : Str) : Bool :=
  parenScan ltext ptext

/-- An anchor element as consumed by the extractor: its `href` attribute, its
rendered text (`get_text()`), and the result of the italic/emphasis ancestor walk
of `is_in_italics` (lines 99-108), a structural query over the document tree that
stops at the paragraph boundary. -/
structure Anchor where
  href : Str
  text : Str
  italicAncestor : Bool
deriving DecidableEq

/-- `is_in_italics` (lines 99-108), modelled by the precomputed ancestor-walk flag. -/
def is_in_italics (a : Anchor) : Bool :=
  a.italicAncestor

/-- A direct-child paragraph of the article body: its rendered text and its anchors
(`find_all('a', href=True)`) in document order. -/
structure Paragraph where
  text : Str
  anchors : List Anchor
deriving DecidableEq

/-- The article body (first `div.mw-parser-output`): its direct-child paragraphs in
document order. -/
structure ArticleBody where
  paragraphs : List Paragraph
deriving DecidableEq

/-- The main content region (`div#mw-content-text`), which may lack the article
body container. -/
structure MwContent where
  parserOutput : Option ArticleBody
deriving DecidableEq

/-- A parsed page: the main content region may be absent. -/
structure Html where
  mwContentText : Option MwContent
deriving DecidableEq

/-- Modelled contract of `urllib.parse.urljoin` for the root-relative hrefs this
program accepts (every accepted href starts with `/wiki/`): joining against
`BASE_URL` prepends the origin. -/
def urljoin (base href : Str) : Str :=
  base ++ href

/-- The inner anchor loop of `find_first_valid_links` (lines 139-157).  `Sum.inl`
is the early `return` taken as soon as `num_links` links are collected; `Sum.inr`
hands the accumulated links back to the paragraph loop. -/
def anchorLoop (ptext : Str) (numLinks : Nat) : List Anchor → List Str → Sum (List Str) (List Str)
  | [], acc => .inr acc
  | a :: rest, acc =>
    if !(is_valid_link a.href) then anchorLoop ptext numLinks rest acc
    else if is_in_italics a then anchorLoop ptext numLinks rest acc
    else if is_in_parentheses ptext a.text then anchorLoop ptext numLinks rest acc
    else
      let acc' := acc ++ [urljoin BASE_URL a.href]
      if numLinks ≤ acc'.length then .inl acc'
      else anchorLoop ptext numLinks rest acc'

/-- The emptiness test `paragraph.get_text(strip=True)` of line 129: the stripped
visible text is non-empty exactly when some character is not whitespace. -/
def paraVisible (p : Paragraph) : Bool :=
  p.text.any fun c => !c.isWhitespace

/-- The outer paragraph loop of `find_first_valid_links` (lines 127-159): skip
paragraphs whose visible text is empty after stripping, otherwise scan their
anchors; an early return from the anchor loop ends the whole extraction. -/
def paraLoop (numLinks : Nat) : List Paragraph → List Str → List Str
  | [], acc => acc
  | p :: rest, acc =>
    if !(paraVisible p) then paraLoop numLinks rest acc
    else
      match anchorLoop p.text numLinks p.anchors acc with
      | .inl res => res
      | .inr acc' => paraLoop numLinks rest acc'

/-- `find_first_valid_links` (lines 110-159): locate `div#mw-content-text`, then the
first `div.mw-parser-output`; if either is absent return the empty list, otherwise
run the paragraph scan.  There is no failure path: the result is always a plain
list of at most the collected links. -/
def find_first_valid_links (html : Html) (num_links : Nat) : List Str :=
  match html.mwContentText with
  | none => []
  | some content =>
    match content.parserOutput with
    | none => []
    | some body => paraLoop num_links body.paragraphs []

/-- Modelled contract of `urllib.parse.urlparse(url).path` on the URLs this program
builds (absolute http(s) URLs): strip the scheme and the authority, stop at a query
or fragment; a scheme-less input is already a path. -/
def urlparse_path (url : Str) : Str :=
  if ( "https://".data).isPrefixOf url then
    (((url.drop 8).dropWhile fun c => !(c == '/')).takeWhile fun c => !(c == '?' || c == '#'))
  else if ( "http://".data).isPrefixOf url then
    (((url.drop 7).dropWhile fun c => !(c == '/')).takeWhile fun c => !(c == '?' || c == '#'))
  else url.takeWhile fun c => !(c == '?' || c == '#')

/-- Value of a hexadecimal digit, for percent-decoding. -/
def hexVal (c : Char) : Option Nat :=
  if '0' ≤ c ∧ c ≤ '9' then some (c.toNat - '0'.toNat)
  else if 'a' ≤ c ∧ c ≤ 'f' then some (c.toNat - 'a'.toNat + 10)
  else if 'A' ≤ c ∧ c ≤ 'F' then some (c.toNat - 'A'.toNat + 10)
  else none

/-- Modelled contract of `urllib.parse.unquote`: decode `%XX` escapes, leave
everything else (including malformed escapes) unchanged. -/
def percentDecode : Str → Str
  | [] => []
  | c :: c1 :: c2 :: rest2 =>
    if c = '%' then
      match hexVal c1, hexVal c2 with
      | some a, some b => Char.ofNat (16 * a + b) :: percentDecode rest2
      | _, _ => c :: percentDecode (c1 :: c2 :: rest2)
    else c :: percentDecode (c1 :: c2 :: rest2)
  | c :: rest => c :: percentDecode rest

/-- Scan for Python's `path.split(sep)[-1]`: walk the string left to right; each
time `sep` matches, the final split segment restarts just after the match.  `best`
holds the segment after the last match seen so far (initially the whole string). -/
def pySplitLastGo (sep : Str) : Nat → Str → Str → Str
  | 0, _, best => best
  | fuel + 1, s, best =>
    match s with
    | [] => best
    | _ :: rest =>
      if sep.isPrefixOf s then
        let s' := s.drop sep.length
        pySplitLastGo sep fuel s' s'
      else pySplitLastGo sep fuel rest best

/-- Python's `s.split(sep)[-1]`: the part of `s` after the last (left-to-right,
non-overlapping) occurrence of `sep`, or `s` itself when `sep` does not occur. -/
def splitLastSuffix (sep s : Str) : Str :=
  pySplitLastGo sep s.length s s

/-- `get_page_title_from_url` (lines 29-35): take the URL's path; if it contains
`/wiki/`, the title is the percent-decoded part after the last `/wiki/`, otherwise
there is no title. -/
def get_page_title_from_url (url : Str) : Option Str :=
  let path := urlparse_path url
  if containsSub ( "/wiki/".data) path then
    some (percentDecode (splitLastSuffix ( "/wiki/".data) path))
  else none

/-- Terminal outcomes of a run, one per `return` site of `navigate` plus the
budget exit: success (line 178), fetch failure (line 209), no valid links
(line 216), a repeated cycle in secondary-attempt mode (line 199), the
cannot-backtrack branch (line 196), an unparsable link URL (line 233), and the
iteration ceiling (line 238). -/
inductive Outcome where
  | succeeded
  | failedFetch
  | failedNoLinks
  | failedLoop
  | cannotBacktrack
  | failedParse
  | failedBudget
deriving DecidableEq

/-- The navigator's mutable state at the top of the `while` loop: `current_page`,
`visited_pages` and `link_attempt`. -/
structure NavState where
  currentPage : Str
  visited : List Str
  linkAttempt : Nat
deriving DecidableEq

/-- Result of one pass of the loop body: either the loop continues with an updated
state, or the run ends with an outcome and the accumulated `visited_pages`. -/
inductive StepResult where
  | next (s : NavState) : StepResult
  | done (o : Outcome) (path : List Str) : StepResult
deriving DecidableEq

/-- One pass of the body of the `navigate` loop (lines 174-235), after the
iteration increment: target check, cycle detection with the single backtrack,
append to `visited_pages`, fetch, link extraction, link selection (the secondary
link is used exactly when `link_attempt == 1` and a second candidate exists, and
`link_attempt` is reset to 0 on either choice), and title resolution. -/
def navStep (fetch : Str → Option Html) (s : NavState) : StepResult :=
  if s.currentPage = TARGET then .done .succeeded s.visited
  else if s.currentPage ∈ s.visited then
    if s.linkAttempt = 0 then
      match s.visited.getLast? with
      | some prev => .next ⟨prev, s.visited, 1⟩
      | none => .done .cannotBacktrack s.visited
    else .done .failedLoop s.visited
  else
    let visited' := s.visited ++ [s.currentPage]
    match fetch s.currentPage with
    | none => .done .failedFetch visited'
    | some html =>
      match find_first_valid_links html 2 with
      | [] => .done .failedNoLinks visited'
      | l0 :: rest =>
        let nextUrl := if s.linkAttempt = 1 ∧ rest ≠ [] then rest.headD l0 else l0
        match get_page_title_from_url nextUrl with
        | none => .done .failedParse visited'
        | some p => .next ⟨p, visited', 0⟩

/-- The `while iteration < MAX_ITERATIONS` loop of `navigate`, with the remaining
iteration budget as fuel; exhausting the budget is the `FailedBudget` exit
(lines 237-238). -/
def navigateAux (fetch : Str → Option Html) : Nat → NavState → Outcome × List Str
  | 0, s => (.failedBudget, s.visited)
  | fuel + 1, s =>
    match navStep fetch s with
    | .done o path => (o, path)
    | .next s' => navigateAux fetch fuel s'

/-- `navigate` (lines 161-238): run the loop from `start_page` with empty history
and `link_attempt = 0`. -/
def navigate (fetch : Str → Option Html) (start : Str) : Outcome × List Str :=
  navigateAux fetch MAX_ITERATIONS ⟨start, [], 0⟩

/-- `print_summary` (lines 240-248) reports the path as the visited pages followed
by `TARGET`. -/
def summaryPath (visited : List Str) : List Str :=
  visited ++ [TARGET]

/-- The trace of loop-entry points of `navigate`: each entry pairs the value of
`iteration` at the loop test with the state there; a final entry records the
budget exit.  Mirrors `navigateAux` with `iteration = MAX_ITERATIONS - fuel`. -/
def runStates (fetch : Str → Option Html) : Nat → Nat → NavState → List (Nat × NavState)
  | 0, iteration, s => [(iteration, s)]
  | fuel + 1, iteration, s =>
    (iteration, s) ::
      (match navStep fetch s with
       | .done _ _ => []
       | .next s' => runStates fetch fuel (iteration + 1) s')

-- Sanity examples (concrete evaluation of the embedded code).

def egAnchor : Anchor := ⟨ "/wiki/Dog".data, "dog".data, false⟩

def egPara : Paragraph := ⟨ "A dog is an animal".data, [egAnchor]⟩

def egHtml : Html := ⟨some ⟨some ⟨[egPara]⟩⟩⟩

example : is_valid_link ( "/wiki/Dog".data) = true := by decide

example : is_valid_link ( "/wiki/Help:Contents".data) = false := by decide

example : is_valid_link ( "/wiki/Dog#cite_note-1".data) = false := by decide

example : is_in_parentheses ( "A dog (from Latin canis) barks".data) ( "canis".data) = true := by
  decide

example : is_in_parentheses ( "A dog (from Latin canis) barks".data) ( "dog".data) = false := by
  decide

example : find_first_valid_links egHtml 2 = [ "https://en.wikipedia.org/wiki/Dog".data] := by
  decide

example : get_page_title_from_url ( "https://en.wikipedia.org/wiki/Dog".data) =
    some ( "Dog".data) := by decide

example : get_page_title_from_url ( "https://en.wikipedia.org/wiki/A%20B".data) =
    some ( "A B".data) := by decide

example : find_first_valid_links ⟨none⟩ 2 = [] := rfl

-- Navigator step facts.

/-- Recognizer for the cannot-backtrack exit of a step, used to state its
unreachability. -/
def isCannotBacktrackResult : StepResult → Bool
  | .done .cannotBacktrack _ => true
  | _ => false

theorem visited_getLast?_of_mem {s : NavState} (hm : s.currentPage ∈ s.visited) :
    ∃ prev, s.visited.getLast? = some prev := by
  have hne : s.visited ≠ [] := List.ne_nil_of_mem hm
  exact ⟨s.visited.getLast hne, List.getLast?_eq_getLast _ hne⟩

/-- C10: the `cannot backtrack, no previous page` branch (line 195-196) is
unreachable: it requires `current_page ∈ visited_pages` together with
`visited_pages = []`, and membership in the empty list is impossible, so no step
of the navigator, from any state and any page world, ever produces the
cannot-backtrack exit. -/
theorem cycle_implies_backtrack_possible (fetch : Str → Option Html) (s : NavState) :
    isCannotBacktrackResult (navStep fetch s) = false := by
  unfold navStep
  by_cases hT : s.currentPage = TARGET
  · simp [hT, isCannotBacktrackResult]
  · by_cases hm : s.currentPage ∈ s.visited
    · obtain ⟨prev, hprev⟩ := visited_getLast?_of_mem hm
      by_cases hla : s.linkAttempt = 0
      · simp [hT, hm, hla, hprev, isCannotBacktrackResult]
      · simp [hT, hm, hla, isCannotBacktrackResult]
    · simp only [if_neg hT, if_neg hm]
      cases fetch s.currentPage with
      | none => simp [isCannotBacktrackResult]
      | some html =>
        simp only
        cases find_first_valid_links html 2 with
        | nil => simp [isCannotBacktrackResult]
        | cons l0 rest =>
          simp only
          cases get_page_title_from_url (if s.linkAttempt = 1 ∧ rest ≠ [] then rest.headD l0 else l0) with
          | none => simp [isCannotBacktrackResult]
          | some p => simp [isCannotBacktrackResult]

/-- C2: in any iteration whose cycle branch fires (the current page appears in
the visited sequence, and the page is not the target, which is checked first): if
`link_attempt` is 0, the step re-enters the last visited page with
`link_attempt = 1`, appending nothing, and the loop continues; if `link_attempt`
is already 1, the run ends as a loop failure with no further retries. -/
theorem cycle_branch_policy (fetch : Str → Option Html) (s : NavState)
    (hT : s.currentPage ≠ TARGET) (hm : s.currentPage ∈ s.visited) :
    (s.linkAttempt = 0 →
      ∃ prev, s.visited.getLast? = some prev ∧
        navStep fetch s = .next ⟨prev, s.visited, 1⟩) ∧
    (s.linkAttempt = 1 → navStep fetch s = .done .failedLoop s.visited) := by
  obtain ⟨prev, hprev⟩ := visited_getLast?_of_mem hm
  constructor
  · intro hla
    exact ⟨prev, hprev, by simp [navStep, hT, hm, hla, hprev]⟩
  · intro hla
    have hla0 : ¬ s.linkAttempt = 0 := by omega
    simp [navStep, hT, hm, hla0]

/-- Witness for `cycle_branch_policy` at a concrete cyclic state. -/
theorem cycle_branch_policy_witness :
    navStep (fun _ => none) ⟨ "A".data, [ "A".data], 1⟩ = .done .failedLoop [ "A".data] :=
  (cycle_branch_policy (fun _ => none) ⟨ "A".data, [ "A".data], 1⟩
    (by decide) (by decide)).2 rfl

/-- C5: if the current page equals `TARGET` on entry to an iteration the step
succeeds at once — for every page world, hence without any fetch — and the
reported path of `print_summary` is the visited sequence followed by `TARGET`;
in particular a run started at `TARGET` succeeds immediately with reported path
`[TARGET]` of length 1. -/
theorem target_entry_succeeds (fetch : Str → Option Html) (s : NavState)
    (hT : s.currentPage = TARGET) :
    navStep fetch s = .done .succeeded s.visited ∧
    (summaryPath s.visited).getLast? = some TARGET ∧
    (∀ fetch', navigate fetch' TARGET = (.succeeded, [])) ∧
    (summaryPath []).length = 1 := by
  refine ⟨by simp [navStep, hT], ?_, fun fetch' => rfl, rfl⟩
  simp [summaryPath]

/-- Witness for `target_entry_succeeds`: a run whose start page is already the
target, under a page world that can fetch nothing at all. -/
theorem target_entry_succeeds_witness :
    navStep (fun _ => none) ⟨TARGET, [], 0⟩ = .done .succeeded [] ∧
    navigate (fun _ => none) TARGET = (.succeeded, []) := by
  have h := target_entry_succeeds (fun _ => none) ⟨TARGET, [], 0⟩ rfl
  exact ⟨h.1, h.2.2.1 (fun _ => none)⟩

/-- C7: the extractor is total with no failure path — a missing main content
region or a missing article-body container yields the empty sequence, never an
error — and a navigator step whose extraction comes back empty ends the run with
the no-links-found outcome. -/
theorem extractor_no_failure_path (n : Nat) (fetch : Str → Option Html)
    (s : NavState) (html : Html) (mc : MwContent)
    (hT : s.currentPage ≠ TARGET) (hm : s.currentPage ∉ s.visited)
    (hf : fetch s.currentPage = some html)
    (hempty : find_first_valid_links html 2 = []) :
    find_first_valid_links ⟨none⟩ n = [] ∧
    (mc.parserOutput = none → find_first_valid_links ⟨some mc⟩ n = []) ∧
    navStep fetch s = .done .failedNoLinks (s.visited ++ [s.currentPage]) := by
  refine ⟨rfl, ?_, ?_⟩
  · intro hmc
    simp [find_first_valid_links, hmc]
  · simp [navStep, hT, hm, hf, hempty]

/-- Witness for `extractor_no_failure_path`: a start page whose article has no
article-body container, driving the run to the no-links outcome. -/
theorem extractor_no_failure_path_witness :
    navStep (fun _ => some ⟨some ⟨none⟩⟩) ⟨ "Dog".data, [], 0⟩ =
      .done .failedNoLinks [ "Dog".data] := by
  have h := extractor_no_failure_path 2 (fun _ => some ⟨some ⟨none⟩⟩)
    ⟨ "Dog".data, [], 0⟩ ⟨some ⟨none⟩⟩ ⟨none⟩
    (by decide) (by decide) rfl rfl
  simpa using h.2.2

/-- C3: the secondary-attempt mark is consumed by the very next link-selection
step.  If a step from a state with `link_attempt = 1` continues the loop, that
step was a link-selection step (the cycle branch with `link_attempt = 1` is
terminal), it followed the second extracted candidate when one existed and the
first otherwise, and it reset `link_attempt` to 0; moreover any step that
advances past a link selection (observable as a change of the visited sequence)
leaves `link_attempt = 0`, so `link_attempt` is never 1 across two consecutive
link-selection steps. -/
theorem secondary_attempt_consumed (fetch : Str → Option Html) (s s' : NavState)
    (h : navStep fetch s = .next s') :
    (s.linkAttempt = 1 →
      s'.linkAttempt = 0 ∧
      ∃ html l0 rest, fetch s.currentPage = some html ∧
        find_first_valid_links html 2 = l0 :: rest ∧
        get_page_title_from_url (if rest = [] then l0 else rest.headD l0) =
          some s'.currentPage) ∧
    (s'.visited ≠ s.visited → s'.linkAttempt = 0) := by
  unfold navStep at h
  by_cases hT : s.currentPage = TARGET
  · simp [hT] at h
  · rw [if_neg hT] at h
    by_cases hm : s.currentPage ∈ s.visited
    · rw [if_pos hm] at h
      obtain ⟨prev, hprev⟩ := visited_getLast?_of_mem hm
      by_cases hla : s.linkAttempt = 0
      · rw [if_pos hla, hprev] at h
        simp only [StepResult.next.injEq] at h
        constructor
        · intro hla1
          omega
        · intro hvis
          exact absurd (by rw [← h]) hvis
      · rw [if_neg hla] at h
        simp at h
    · rw [if_neg hm] at h
      simp only at h
      rcases hfe : fetch s.currentPage with _ | html
      · rw [hfe] at h
        simp at h
      · rw [hfe] at h
        simp only at h
        rcases hfl : find_first_valid_links html 2 with _ | ⟨l0, rest⟩
        · rw [hfl] at h
          simp at h
        · rw [hfl] at h
          simp only at h
          rcases hgt : get_page_title_from_url
              (if s.linkAttempt = 1 ∧ rest ≠ [] then rest.headD l0 else l0) with _ | p
          · rw [hgt] at h
            simp at h
          · rw [hgt] at h
            simp only [StepResult.next.injEq] at h
            subst h
            refine ⟨?_, fun _ => rfl⟩
            intro hla1
            refine ⟨rfl, html, l0, rest, rfl, hfl, ?_⟩
            rcases rest with _ | ⟨l1, rest'⟩
            · simpa using hgt
            · have hcond : s.linkAttempt = 1 ∧ (l1 :: rest' : List Str) ≠ [] :=
                ⟨hla1, by simp⟩
              rw [if_pos hcond] at hgt
              simpa using hgt

/-- A page whose first paragraph carries two valid anchors, the second leading to
the target. -/
def egTwoLinkHtml : Html :=
  ⟨some ⟨some ⟨[⟨ "A canine resembles a dog".data,
    [⟨ "/wiki/Dog".data, "dog".data, false⟩,
     ⟨ "/wiki/Philosophy".data, "philosophy".data, false⟩]⟩]⟩⟩⟩

/-- Witness for `secondary_attempt_consumed`: a state in secondary-attempt mode
on a fresh page with two extracted candidates; the step consumes the second
candidate and resets the attempt index. -/
theorem secondary_attempt_consumed_witness :
    ((⟨ "Philosophy".data, [ "Dog".data, "Canine".data], 0⟩ : NavState).linkAttempt = 0) ∧
    ∃ html l0 rest,
      (fun _ => some egTwoLinkHtml) ( "Canine".data) = some html ∧
      find_first_valid_links html 2 = l0 :: rest ∧
      get_page_title_from_url (if rest = [] then l0 else rest.headD l0) =
        some ( "Philosophy".data) :=
  (secondary_attempt_consumed (fun _ => some egTwoLinkHtml)
    ⟨ "Canine".data, [ "Dog".data], 1⟩
    ⟨ "Philosophy".data, [ "Dog".data, "Canine".data], 0⟩ (by decide)).1 rfl

/-- A continuing navigator step never shrinks or edits the visited sequence: it
either keeps it unchanged (backtrack) or appends the current page, and the append
happens only when the page is absent, preserving freedom from duplicates. -/
theorem navStep_next_visited (fetch : Str → Option Html) (s s' : NavState)
    (h : navStep fetch s = .next s') :
    s.visited <+: s'.visited ∧ (s.visited.Nodup → s'.visited.Nodup) := by
  unfold navStep at h
  by_cases hT : s.currentPage = TARGET
  · simp [hT] at h
  · rw [if_neg hT] at h
    by_cases hm : s.currentPage ∈ s.visited
    · rw [if_pos hm] at h
      obtain ⟨prev, hprev⟩ := visited_getLast?_of_mem hm
      by_cases hla : s.linkAttempt = 0
      · rw [if_pos hla, hprev] at h
        simp only [StepResult.next.injEq] at h
        rw [← h]
        exact ⟨List.prefix_rfl, fun hn => hn⟩
      · rw [if_neg hla] at h
        simp at h
    · rw [if_neg hm] at h
      simp only at h
      rcases hfe : fetch s.currentPage with _ | html
      · rw [hfe] at h
        simp at h
      · rw [hfe] at h
        simp only at h
        rcases hfl : find_first_valid_links html 2 with _ | ⟨l0, rest⟩
        · rw [hfl] at h
          simp at h
        · rw [hfl] at h
          simp only at h
          rcases hgt : get_page_title_from_url
              (if s.linkAttempt = 1 ∧ rest ≠ [] then rest.headD l0 else l0) with _ | p
          · rw [hgt] at h
            simp at h
          · rw [hgt] at h
            simp only [StepResult.next.injEq] at h
            subst h
            exact ⟨List.prefix_append _ _, fun hn => by simp [List.nodup_append, hn, hm]⟩

/-- A terminating navigator step reports a path extending the visited sequence
(either unchanged or with the current page appended), and the path stays free of
duplicates. -/
theorem navStep_done_visited (fetch : Str → Option Html) (s : NavState)
    (o : Outcome) (path : List Str) (h : navStep fetch s = .done o path) :
    s.visited <+: path ∧ (s.visited.Nodup → path.Nodup) := by
  unfold navStep at h
  by_cases hT : s.currentPage = TARGET
  · simp only [if_pos hT, StepResult.done.injEq] at h
    rw [← h.2]
    exact ⟨List.prefix_rfl, fun hn => hn⟩
  · rw [if_neg hT] at h
    by_cases hm : s.currentPage ∈ s.visited
    · rw [if_pos hm] at h
      obtain ⟨prev, hprev⟩ := visited_getLast?_of_mem hm
      by_cases hla : s.linkAttempt = 0
      · rw [if_pos hla, hprev] at h
        simp at h
      · rw [if_neg hla] at h
        simp only [StepResult.done.injEq] at h
        rw [← h.2]
        exact ⟨List.prefix_rfl, fun hn => hn⟩
    · rw [if_neg hm] at h
      simp only at h
      have happ : s.visited <+: s.visited ++ [s.currentPage] ∧
          (s.visited.Nodup → (s.visited ++ [s.currentPage]).Nodup) :=
        ⟨List.prefix_append _ _, fun hn => by simp [List.nodup_append, hn, hm]⟩
      rcases hfe : fetch s.currentPage with _ | html
      · rw [hfe] at h
        simp only [StepResult.done.injEq] at h
        rw [← h.2]
        exact happ
      · rw [hfe] at h
        simp only at h
        rcases hfl : find_first_valid_links html 2 with _ | ⟨l0, rest⟩
        · rw [hfl] at h
          simp only [StepResult.done.injEq] at h
          rw [← h.2]
          exact happ
        · rw [hfl] at h
          simp only at h
          rcases hgt : get_page_title_from_url
              (if s.linkAttempt = 1 ∧ rest ≠ [] then rest.headD l0 else l0) with _ | p
          · rw [hgt] at h
            simp only [StepResult.done.injEq] at h
            rw [← h.2]
            exact happ
          · rw [hgt] at h
            simp at h

/-- The run trace always starts with its initial entry. -/
theorem runStates_cons (fetch : Str → Option Html) (fuel iteration : Nat) (s : NavState) :
    ∃ tail, runStates fetch fuel iteration s = (iteration, s) :: tail := by
  cases fuel with
  | zero => exact ⟨[], rfl⟩
  | succ fuel =>
    cases hstep : navStep fetch s with
    | done o path => exact ⟨[], by simp [runStates, hstep]⟩
    | next s' => exact ⟨runStates fetch fuel (iteration + 1) s', by simp [runStates, hstep]⟩

theorem runStates_visited_invariant (fetch : Str → Option Html) :
    ∀ (fuel iteration : Nat) (s : NavState), s.visited.Nodup →
      (∀ p ∈ runStates fetch fuel iteration s, p.2.visited.Nodup) ∧
      List.Chain' (fun a b => a.2.visited <+: b.2.visited)
        (runStates fetch fuel iteration s)
  | 0, iteration, s, hn => by
    constructor
    · intro p hp
      rw [show p = (iteration, s) from by simpa [runStates] using hp]
      exact hn
    · exact List.chain'_singleton _
  | fuel + 1, iteration, s, hn => by
    cases hstep : navStep fetch s with
    | done o path =>
      simp only [runStates, hstep]
      constructor
      · intro p hp
        rw [show p = (iteration, s) from by simpa using hp]
        exact hn
      · exact List.chain'_singleton _
    | next s' =>
      have hvis := navStep_next_visited fetch s s' hstep
      have ih := runStates_visited_invariant fetch fuel (iteration + 1) s' (hvis.2 hn)
      obtain ⟨tail, htail⟩ := runStates_cons fetch fuel (iteration + 1) s'
      simp only [runStates, hstep]
      constructor
      · intro p hp
        rcases List.mem_cons.mp hp with hp | hp
        · rw [hp]
          exact hn
        · exact ih.1 p hp
      · rw [htail]
        rw [htail] at ih
        exact List.chain'_cons.mpr ⟨hvis.1, ih.2⟩

/-- The final path of the loop extends a duplicate-free visited sequence without
introducing duplicates. -/
theorem navigateAux_nodup (fetch : Str → Option Html) :
    ∀ (fuel : Nat) (s : NavState), s.visited.Nodup →
      (navigateAux fetch fuel s).2.Nodup
  | 0, _, hn => hn
  | fuel + 1, s, hn => by
    cases hstep : navStep fetch s with
    | done o path =>
      simpa [navigateAux, hstep] using (navStep_done_visited fetch s o path hstep).2 hn
    | next s' =>
      simpa [navigateAux, hstep] using
        navigateAux_nodup fetch fuel s' ((navStep_next_visited fetch s s' hstep).2 hn)

/-- C4: along every run the visited sequence is append-only — each loop entry's
visited sequence is a prefix of the next one's — a page is appended only when it
is not already present, and therefore the visited sequence (and the final
reported path) is duplicate-free at every point of the run. -/
theorem visited_append_only_nodup (fetch : Str → Option Html) (start : Str) :
    (∀ p ∈ runStates fetch MAX_ITERATIONS 0 ⟨start, [], 0⟩, p.2.visited.Nodup) ∧
    List.Chain' (fun a b => a.2.visited <+: b.2.visited)
      (runStates fetch MAX_ITERATIONS 0 ⟨start, [], 0⟩) ∧
    (navigate fetch start).2.Nodup := by
  have h := runStates_visited_invariant fetch MAX_ITERATIONS 0 ⟨start, [], 0⟩ List.nodup_nil
  exact ⟨h.1, h.2, navigateAux_nodup fetch MAX_ITERATIONS _ List.nodup_nil⟩

/-- Witness for `visited_append_only_nodup` at a concrete world and start page. -/
theorem visited_append_only_nodup_witness :
    (navigate (fun _ => none) ( "Dog".data)).2.Nodup :=
  (visited_append_only_nodup (fun _ => none) ( "Dog".data)).2.2

-- Scenario C (the backtrack-then-secondary-link scenario).

/-- The start page of the backtrack scenario: its first paragraph has two valid
anchors, the first leading back to the start page itself (a cycle after one
step), the second leading to the target. -/
def scenarioCHtml : Html :=
  ⟨some ⟨some ⟨[⟨ "Some words about the start page".data,
    [⟨ "/wiki/Start".data, "start".data, false⟩,
     ⟨ "/wiki/Philosophy".data, "philosophy".data, false⟩]⟩]⟩⟩⟩

/-- The page world of the backtrack scenario. -/
def scenarioCWorld : Str → Option Html := fun t =>
  if t = "Start".data then some scenarioCHtml else none

/-- C1 (code bug): in the scenario of the claim — two valid candidates on the
start page, the first cycling back to an already-visited page, the second leading
to the target — the run does NOT succeed: the backtrack sets `current_page` to
the last visited page, but that page is still in `visited_pages` (the comment on
line 191 announces a removal the code never performs), so the next iteration hits
the cycle branch with `link_attempt = 1` and the run ends as a loop failure.  The
secondary-candidate selection is never reached. -/
theorem backtrack_scenario_fails :
    navigate scenarioCWorld ( "Start".data) = (.failedLoop, [ "Start".data]) ∧
    (navigate scenarioCWorld ( "Start".data)).1 ≠ .succeeded := by
  constructor
  · decide
  · decide

-- The extractor as a take of the full scan (C6).

/-- The conjunction of the three per-anchor acceptance checks of the extractor
loop (lines 140-149). -/
def anchorOk (ptext : Str) (a : Anchor) : Bool :=
  is_valid_link a.href && !(is_in_italics a) && !(is_in_parentheses ptext a.text)

/-- All accepted link URLs of one paragraph, in document order, with no limit. -/
def validUrls (ptext : Str) (anchors : List Anchor) : List Str :=
  (anchors.filter (anchorOk ptext)).map fun a => urljoin BASE_URL a.href

/-- All accepted link URLs of all visible paragraphs, in document order, with no
limit: the unbounded counterpart of `find_first_valid_links`. -/
def allValidLinks (html : Html) : List Str :=
  match html.mwContentText with
  | none => []
  | some content =>
    match content.parserOutput with
    | none => []
    | some body =>
      (body.paragraphs.filter paraVisible).flatMap fun p => validUrls p.text p.anchors

theorem anchorLoop_eq (ptext : Str) (n : Nat) :
    ∀ (anchors : List Anchor) (acc : List Str), acc.length < n →
      anchorLoop ptext n anchors acc =
        (if n ≤ (acc ++ validUrls ptext anchors).length
         then .inl ((acc ++ validUrls ptext anchors).take n)
         else .inr (acc ++ validUrls ptext anchors))
  | [], acc, hlt => by
    simp only [anchorLoop, validUrls, List.filter_nil, List.map_nil, List.append_nil]
    rw [if_neg (by omega)]
  | a :: rest, acc, hlt => by
    cases hv : is_valid_link a.href with
    | false =>
      have hok : anchorOk ptext a = false := by simp [anchorOk, hv]
      simp only [anchorLoop, hv, Bool.not_false, if_true]
      rw [anchorLoop_eq ptext n rest acc hlt]
      simp [validUrls, List.filter_cons, hok]
    | true =>
      cases hi : is_in_italics a with
      | true =>
        have hok : anchorOk ptext a = false := by simp [anchorOk, hi]
        simp only [anchorLoop, hv, Bool.not_true, if_false, hi, if_true]
        rw [anchorLoop_eq ptext n rest acc hlt]
        simp [validUrls, List.filter_cons, hok]
      | false =>
        cases hp : is_in_parentheses ptext a.text with
        | true =>
          have hok : anchorOk ptext a = false := by simp [anchorOk, hp]
          simp only [anchorLoop, hv, Bool.not_true, if_false, hi, hp, if_true]
          rw [anchorLoop_eq ptext n rest acc hlt]
          simp [validUrls, List.filter_cons, hok]
        | false =>
          have hok : anchorOk ptext a = true := by simp [anchorOk, hv, hi, hp]
          have hurls : validUrls ptext (a :: rest) =
              urljoin BASE_URL a.href :: validUrls ptext rest := by
            simp [validUrls, List.filter_cons, hok]
          simp only [anchorLoop, hv, Bool.not_true, if_false, hi, hp, hurls]
          by_cases hn : n ≤ (acc ++ [urljoin BASE_URL a.href]).length

          · have hn' : n = acc.length + 1 := by
              simp only [List.length_append, List.length_singleton] at hn
              omega
            rw [if_pos hn]
            have hcond : n ≤ (acc ++ urljoin BASE_URL a.href :: validUrls ptext rest).length := by
              simp only [List.length_append, List.length_cons]
              omega
            rw [if_pos hcond, hn']
            rw [show acc.length + 1 = acc.length + 1 from rfl]
            rw [List.take_append]
            simp
          · rw [if_neg hn]
            rw [anchorLoop_eq ptext n rest (acc ++ [urljoin BASE_URL a.href])
              (by simp only [List.length_append, List.length_singleton] at hn ⊢; omega)]
            rw [List.append_assoc]
            simp

/-- All accepted link URLs of a list of paragraphs. -/
def allFromParas (paras : List Paragraph) : List Str :=
  (paras.filter paraVisible).flatMap fun p => validUrls p.text p.anchors

theorem paraLoop_eq (n : Nat) :
    ∀ (paras : List Paragraph) (acc : List Str), acc.length < n →
      paraLoop n paras acc =
        (if n ≤ (acc ++ allFromParas paras).length
         then (acc ++ allFromParas paras).take n
         else acc ++ allFromParas paras)
  | [], acc, hlt => by
    simp only [paraLoop, allFromParas, List.filter_nil, List.flatMap_nil, List.append_nil]
    rw [if_neg (by omega)]
  | p :: rest, acc, hlt => by
    cases hvp : paraVisible p with
    | false =>
      simp only [paraLoop, hvp, Bool.not_false, if_true]
      rw [paraLoop_eq n rest acc hlt]
      simp [allFromParas, List.filter_cons, hvp]
    | true =>
      have hall : allFromParas (p :: rest) =
          validUrls p.text p.anchors ++ allFromParas rest := by
        simp [allFromParas, List.filter_cons, hvp]
      simp only [paraLoop, hvp, Bool.not_true, Bool.false_eq_true, if_false]
      rw [anchorLoop_eq p.text n p.anchors acc hlt]
      by_cases hn : n ≤ (acc ++ validUrls p.text p.anchors).length
      · rw [if_pos hn]
        simp only
        have hcond : n ≤ (acc ++ allFromParas (p :: rest)).length := by
          rw [hall, ← List.append_assoc]
          simp only [List.length_append] at hn ⊢
          omega
        rw [if_pos hcond, hall, ← List.append_assoc]
        rw [List.take_append_of_le_length hn]
      · rw [if_neg hn]
        simp only
        rw [paraLoop_eq n rest (acc ++ validUrls p.text p.anchors) (by omega)]
        rw [hall, ← List.append_assoc]

/-- C6 (amended): for every content input and every `maxLinks ≥ 1` the extractor
returns exactly the first `maxLinks` accepted candidates of the unbounded scan —
so it returns at most `maxLinks` candidates and scanning past the point where
`maxLinks` candidates were collected cannot change the result — and every
returned candidate resolves a href accepted by `is_valid_link`, hence one that
begins with no reserved namespace mark.  (At `maxLinks = 0` the length bound
fails; see the counterexample.) -/
theorem extractor_take_bound (html : Html) (maxLinks : Nat) (h1 : 1 ≤ maxLinks) :
    find_first_valid_links html maxLinks = (allValidLinks html).take maxLinks ∧
    (find_first_valid_links html maxLinks).length ≤ maxLinks ∧
    ∀ u ∈ find_first_valid_links html maxLinks, ∃ href,
      u = urljoin BASE_URL href ∧ is_valid_link href = true ∧
      ∀ pre ∈ invalid_prefixes, ¬(pre.isPrefixOf href = true) := by
  have hmain : find_first_valid_links html maxLinks = (allValidLinks html).take maxLinks := by
    rcases html with ⟨_ | content⟩
    · simp [find_first_valid_links, allValidLinks]
    · rcases content with ⟨_ | body⟩
      · simp [find_first_valid_links, allValidLinks]
      · show paraLoop maxLinks body.paragraphs [] = _
        rw [paraLoop_eq maxLinks body.paragraphs [] (by simpa using h1)]
        have hall : allValidLinks ⟨some ⟨some body⟩⟩ = allFromParas body.paragraphs := rfl
        rw [hall]
        simp only [List.nil_append]
        by_cases hn : maxLinks ≤ (allFromParas body.paragraphs).length
        · rw [if_pos hn]
        · rw [if_neg hn]
          rw [List.take_of_length_le (by omega)]
  refine ⟨hmain, ?_, ?_⟩
  · rw [hmain]
    simp [List.length_take]
  · intro u hu
    rw [hmain] at hu
    have hu' : u ∈ allValidLinks html := List.mem_of_mem_take hu
    rcases html with ⟨_ | content⟩
    · simp [allValidLinks] at hu'
    · rcases content with ⟨_ | body⟩
      · simp [allValidLinks] at hu'
      · simp only [allValidLinks, List.mem_flatMap] at hu'
        obtain ⟨p, _, hup⟩ := hu'
        simp only [validUrls, List.mem_map] at hup
        obtain ⟨a, hafil, hua⟩ := hup
        have hok := (List.mem_filter.mp hafil).2
        have hvalid : is_valid_link a.href = true := by
          simp only [anchorOk, Bool.and_eq_true] at hok
          exact hok.1.1
        refine ⟨a.href, hua.symm, hvalid, ?_⟩
        intro pre hpre
        have := hvalid
        simp only [is_valid_link, Bool.and_eq_true, Bool.not_eq_true',
          List.any_eq_false] at this
        exact fun hcontra => by simpa [hcontra] using this.1.1.2 pre hpre

/-- Witness for `extractor_take_bound` at a concrete page and `maxLinks = 2`. -/
theorem extractor_take_bound_witness :
    find_first_valid_links egTwoLinkHtml 2 = (allValidLinks egTwoLinkHtml).take 2 ∧
    (find_first_valid_links egTwoLinkHtml 2).length ≤ 2 ∧
    ∀ u ∈ find_first_valid_links egTwoLinkHtml 2, ∃ href,
      u = urljoin BASE_URL href ∧ is_valid_link href = true ∧
      ∀ pre ∈ invalid_prefixes, ¬(pre.isPrefixOf href = true) :=
  extractor_take_bound egTwoLinkHtml 2 (by decide)

/-- C6 counterexample: at `maxLinks = 0` the claimed bound `length ≤ maxLinks`
fails — the length test of line 156 runs only after an append, so a page with a
valid link makes the extractor return one candidate even when zero were
requested. -/
theorem extractor_zero_budget_excess :
    ¬((find_first_valid_links egHtml 0).length ≤ 0) := by decide

-- The parenthesis heuristic as a pattern-matching fact (C9).

/-- The spec's description of the parenthesis pattern `\([^)]*` + escaped link
text + `[^)]*\)`: somewhere in the paragraph text an opening parenthesis is
followed by closing-paren-free characters, the literal link text, more
closing-paren-free characters, and a closing parenthesis. -/
def ParenPatternMatches (ltext ptext : Str) : Prop :=
  ∃ s1 a b s2, ptext = s1 ++ '(' :: (a ++ ltext ++ b ++ ')' :: s2) ∧
    (∀ c ∈ a, c ≠ ')') ∧ (∀ c ∈ b, c ≠ ')')

theorem isPrefixOf_iff_exists : ∀ (L s : Str), L.isPrefixOf s = true ↔ ∃ u, s = L ++ u
  | [], s => ⟨fun _ => ⟨s, rfl⟩, fun _ => by cases s <;> rfl⟩
  | a :: as, [] => by
    constructor
    · intro h
      simp [List.isPrefixOf] at h
    · rintro ⟨u, hu⟩
      simp at hu
  | a :: as, b :: bs => by
    simp only [List.isPrefixOf, Bool.and_eq_true, beq_iff_eq]
    constructor
    · rintro ⟨rfl, h⟩
      obtain ⟨u, rfl⟩ := (isPrefixOf_iff_exists as bs).mp h
      exact ⟨u, rfl⟩
    · rintro ⟨u, hu⟩
      injection hu with h1 h2
      subst h1
      exact ⟨rfl, (isPrefixOf_iff_exists as bs).mpr ⟨u, h2⟩⟩

theorem exists_first_split : ∀ (d : Char) (u : Str), d ∈ u →
    ∃ b s2, u = b ++ d :: s2 ∧ d ∉ b
  | d, [], h => absurd h (List.not_mem_nil d)
  | d, c :: rest, h => by
    by_cases hc : c = d
    · exact ⟨[], rest, by simp [hc], List.not_mem_nil d⟩
    · have hm : d ∈ rest := by
        rcases List.mem_cons.mp h with h1 | h1
        · exact absurd h1.symm hc
        · exact h1
      obtain ⟨b, s2, rfl, hnb⟩ := exists_first_split d rest hm
      refine ⟨c :: b, s2, rfl, ?_⟩
      intro hmem
      rcases List.mem_cons.mp hmem with h1 | h1
      · exact hc h1.symm
      · exact hnb h1

theorem parenAfterOpen_of_here : ∀ (L s : Str), L.isPrefixOf s = true →
    ((s.drop L.length).any fun d => d == ')') = true → parenAfterOpen L s = true
  | L, [], h1, h2 => by
    obtain ⟨u, hu⟩ := (isPrefixOf_iff_exists L []).mp h1
    obtain ⟨rfl, rfl⟩ := List.append_eq_nil.mp hu.symm
    simp at h2
  | L, c :: rest, h1, h2 => by
    simp only [parenAfterOpen, Bool.or_eq_true, Bool.and_eq_true]
    exact Or.inl ⟨h1, h2⟩

theorem parenAfterOpen_iff : ∀ (L s : Str), parenAfterOpen L s = true ↔
    ∃ a b s2, s = a ++ L ++ b ++ ')' :: s2 ∧ (∀ c ∈ a, c ≠ ')') ∧ (∀ c ∈ b, c ≠ ')')
  | L, [] => by
    constructor
    · intro h
      simp [parenAfterOpen] at h
    · rintro ⟨a, b, s2, heq, _, _⟩
      simp at heq
  | L, c :: rest => by
    constructor
    · intro h
      simp only [parenAfterOpen, Bool.or_eq_true, Bool.and_eq_true] at h
      rcases h with ⟨h1, h2⟩ | ⟨hc, hrec⟩
      · obtain ⟨u, hu⟩ := (isPrefixOf_iff_exists L (c :: rest)).mp h1
        rw [hu, List.drop_left] at h2
        have hmem : ')' ∈ u := by
          simp only [List.any_eq_true, beq_iff_eq] at h2
          obtain ⟨x, hx, rfl⟩ := h2
          exact hx
        obtain ⟨b, s2, rfl, hnb⟩ := exists_first_split ')' u hmem
        refine ⟨[], b, s2, by simp [hu], by simp, ?_⟩
        intro x hx hxeq
        exact hnb (hxeq ▸ hx)
      · obtain ⟨a, b, s2, heq, ha, hb⟩ := (parenAfterOpen_iff L rest).mp hrec
        refine ⟨c :: a, b, s2, by simp [heq], ?_, hb⟩
        intro x hx
        rcases List.mem_cons.mp hx with h1 | h1
        · subst h1
          exact beq_eq_false_iff_ne.mp (by simpa using hc)
        · exact ha x h1
    · rintro ⟨a, b, s2, heq, ha, hb⟩
      cases a with
      | nil =>
        simp only [List.nil_append] at heq
        apply parenAfterOpen_of_here
        · exact (isPrefixOf_iff_exists L (c :: rest)).mpr ⟨b ++ ')' :: s2, by simpa using heq⟩
        · rw [show (c :: rest : Str) = L ++ (b ++ ')' :: s2) from by simpa using heq]
          rw [List.drop_left]
          simp [List.any_eq_true]
      | cons d a' =>
        simp only [List.cons_append] at heq
        injection heq with h1 h2
        subst h1
        have hd : (c == ')') = false :=
          beq_eq_false_iff_ne.mpr (ha c (List.mem_cons_self c a'))
        have hrec : parenAfterOpen L rest = true := by
          apply (parenAfterOpen_iff L rest).mpr
          refine ⟨a', b, s2, h2, ?_, hb⟩
          intro x hx
          exact ha x (List.mem_cons_of_mem c hx)
        simp [parenAfterOpen, hd, hrec]

theorem parenScan_iff : ∀ (L t : Str), parenScan L t = true ↔
    ∃ s1 s', t = s1 ++ '(' :: s' ∧ parenAfterOpen L s' = true
  | L, [] => by
    constructor
    · intro h
      simp [parenScan] at h
    · rintro ⟨s1, s', heq, _⟩
      simp at heq
  | L, c :: rest => by
    constructor
    · intro h
      simp only [parenScan, Bool.or_eq_true, Bool.and_eq_true] at h
      rcases h with ⟨h1, h2⟩ | hrec
      · exact ⟨[], rest, by simp [beq_iff_eq.mp h1], h2⟩
      · obtain ⟨s1, s', heq, hafter⟩ := (parenScan_iff L rest).mp hrec
        exact ⟨c :: s1, s', by simp [heq], hafter⟩
    · rintro ⟨s1, s', heq, hafter⟩
      cases s1 with
      | nil =>
        simp only [List.nil_append] at heq
        injection heq with h1 h2
        subst h1 h2
        simp [parenScan, hafter]
      | cons d s1' =>
        simp only [List.cons_append] at heq
        injection heq with h1 h2
        subst h1
        have hrec : parenScan L rest = true :=
          (parenScan_iff L rest).mpr ⟨s1', s', h2, hafter⟩
        simp [parenScan, hrec]

/-- An anchor whose link text sits inside a parenthesized span. -/
def parenAnchor : Anchor := ⟨ "/wiki/Canis".data, "canis".data, false⟩

/-- C9: the extractor rejects an anchor on parenthetical grounds exactly when
the paragraph's full rendered text matches the pattern opening-parenthesis,
non-closing-paren characters, the literal link text, non-closing-paren
characters, closing parenthesis; for an anchor passing the href and italics
checks this is also exactly when the acceptance test fails, so no other
parenthesis analysis takes part in the decision. -/
theorem paren_rejection_iff (ptext : Str) (a : Anchor)
    (hv : is_valid_link a.href = true) (hi : is_in_italics a = false) :
    (is_in_parentheses ptext a.text = true ↔ ParenPatternMatches a.text ptext) ∧
    (anchorOk ptext a = false ↔ ParenPatternMatches a.text ptext) := by
  have hiff : is_in_parentheses ptext a.text = true ↔ ParenPatternMatches a.text ptext := by
    constructor
    · intro h
      obtain ⟨s1, s', heq, hafter⟩ := (parenScan_iff a.text ptext).mp h
      obtain ⟨x, b, s2, heq', hx, hb⟩ := (parenAfterOpen_iff a.text s').mp hafter
      exact ⟨s1, x, b, s2, by rw [heq, heq'], hx, hb⟩
    · rintro ⟨s1, x, b, s2, heq, hx, hb⟩
      apply (parenScan_iff a.text ptext).mpr
      refine ⟨s1, x ++ a.text ++ b ++ ')' :: s2, by rw [heq], ?_⟩
      exact (parenAfterOpen_iff a.text _).mpr ⟨x, b, s2, by simp, hx, hb⟩
  refine ⟨hiff, ?_⟩
  rw [← hiff]
  simp [anchorOk, hv, hi]

/-- Witness for `paren_rejection_iff`: a concrete anchor whose link text occurs
inside parentheses is rejected by the acceptance test. -/
theorem paren_rejection_iff_witness :
    anchorOk ( "A dog (from Latin canis) barks".data) parenAnchor = false :=
  (paren_rejection_iff ( "A dog (from Latin canis) barks".data) parenAnchor
      (by decide) (by decide)).2.mpr
    ((paren_rejection_iff ( "A dog (from Latin canis) barks".data) parenAnchor
      (by decide) (by decide)).1.mp (by decide))

-- Iteration budget (C8).

theorem isPrefixOf_append_self : ∀ (l u : Str), l.isPrefixOf (l ++ u) = true
  | [], u => by cases u <;> rfl
  | a :: as, u => by
    simp only [List.cons_append, List.isPrefixOf, beq_self_eq_true, Bool.true_and]
    exact isPrefixOf_append_self as u

theorem containsSub_eq_false {c : Char} (cs : Str) : ∀ (hay : Str), c ∉ hay →
    containsSub (c :: cs) hay = false
  | [], _ => rfl
  | d :: rest, h => by
    have hd : (c == d) = false := by
      simp only [beq_eq_false_iff_ne, ne_eq]
      intro hcd
      exact h (hcd ▸ List.mem_cons_self _ _)
    simp only [containsSub, List.isPrefixOf, hd, Bool.false_and, Bool.false_or]
    exact containsSub_eq_false cs rest (fun hm => h (List.mem_cons_of_mem _ hm))

theorem containsSub_append_self : ∀ (needle u : Str), needle ≠ [] →
    containsSub needle (needle ++ u) = true
  | [], _, hne => absurd rfl hne
  | c :: cs, u, _ => by
    simp only [List.cons_append, containsSub, Bool.or_eq_true]
    exact Or.inl (by simpa [List.cons_append] using isPrefixOf_append_self (c :: cs) u)

theorem pySplitLastGo_no_slash : ∀ (fuel : Nat) (s best : Str), '/' ∉ s →
    pySplitLastGo ( "/wiki/".data) fuel s best = best
  | 0, _, _, _ => rfl
  | fuel + 1, [], best, _ => rfl
  | fuel + 1, c :: rest, best, h => by
    have hc : ('/' == c) = false := by
      simp only [beq_eq_false_iff_ne, ne_eq]
      intro hcd
      exact h (hcd ▸ List.mem_cons_self _ _)
    have hpre : ( "/wiki/".data).isPrefixOf (c :: rest) = false := by
      simp only [show ( "/wiki/".data) = '/' :: "wiki/".data from rfl, List.isPrefixOf, hc,
        Bool.false_and]
    simp only [pySplitLastGo, hpre, Bool.false_eq_true, if_false]
    exact pySplitLastGo_no_slash fuel rest best (fun hm => h (List.mem_cons_of_mem _ hm))

theorem pySplitLastGo_step (sep : Str) (fuel : Nat) (c : Char) (rest best : Str)
    (h : sep.isPrefixOf (c :: rest) = true) :
    pySplitLastGo sep (fuel + 1) (c :: rest) best =
      pySplitLastGo sep fuel ((c :: rest).drop sep.length) ((c :: rest).drop sep.length) := by
  simp only [pySplitLastGo]
  rw [if_pos h]

theorem splitLastSuffix_wiki (t : Str) (h : '/' ∉ t) :
    splitLastSuffix ( "/wiki/".data) ( "/wiki/".data ++ t) = t := by
  show pySplitLastGo ( "/wiki/".data) (( "/wiki/".data ++ t).length)
    ( "/wiki/".data ++ t) ( "/wiki/".data ++ t) = t
  have hlen : ( "/wiki/".data ++ t).length = (t.length + 5) + 1 := by
    rw [List.length_append, show ( "/wiki/".data).length = 6 from rfl]
    omega
  rw [hlen]
  rw [show ( "/wiki/".data ++ t : Str) = '/' :: ( "wiki/".data ++ t) from rfl]
  rw [pySplitLastGo_step _ _ _ _ _
    (by simpa using isPrefixOf_append_self ( "/wiki/".data) t)]
  rw [show (( '/' :: ( "wiki/".data ++ t)).drop ( "/wiki/".data).length) = t from
    List.drop_left ( "/wiki/".data) t]
  exact pySplitLastGo_no_slash _ t t h

theorem percentDecode_id : ∀ (t : Str), '%' ∉ t → percentDecode t = t
  | [], _ => rfl
  | [c], _ => rfl
  | [c, c1], _ => rfl
  | c :: c1 :: c2 :: rest2, h => by
    have hc : ¬(c = '%') := fun hh => h (hh ▸ List.mem_cons_self _ _)
    simp only [percentDecode, if_neg hc]
    rw [percentDecode_id (c1 :: c2 :: rest2) (fun hm => h (List.mem_cons_of_mem _ hm))]

/-- Round trip from a built link URL back to the page title, for titles free of
the characters the URL machinery treats specially. -/
theorem get_title_of_wiki_url (t : Str) (hs : '/' ∉ t) (hp : '%' ∉ t)
    (hq : '?' ∉ t) (hh : '#' ∉ t) :
    get_page_title_from_url (urljoin BASE_URL ( "/wiki/".data ++ t)) = some t := by
  have hpath : urlparse_path (urljoin BASE_URL ( "/wiki/".data ++ t)) =
      ( "/wiki/".data ++ t).takeWhile (fun c => !(c == '?' || c == '#')) := rfl
  have htake : ( "/wiki/".data ++ t).takeWhile (fun c => !(c == '?' || c == '#')) =
      "/wiki/".data ++ t := by
    apply List.takeWhile_eq_self_iff.mpr
    intro c hc
    rcases List.mem_append.mp hc with hm | hm
    · have : c ∈ ([ '/', 'w', 'i', 'k', 'i', '/'] : List Char) := hm
      fin_cases this <;> decide
    · have hq' : ¬(c = '?') := fun hh' => hq (hh' ▸ hm)
      have hh'' : ¬(c = '#') := fun hh' => hh (hh' ▸ hm)
      simp [hq', hh'']
  have hcont : containsSub ( "/wiki/".data) ( "/wiki/".data ++ t) = true :=
    containsSub_append_self _ t (by decide)
  show (if containsSub ( "/wiki/".data) (urlparse_path (urljoin BASE_URL ( "/wiki/".data ++ t))) = true
    then some (percentDecode (splitLastSuffix ( "/wiki/".data)
      (urlparse_path (urljoin BASE_URL ( "/wiki/".data ++ t)))))
    else none) = some t
  rw [hpath, htake, if_pos hcont, splitLastSuffix_wiki t hs, percentDecode_id t hp]

theorem runStates_iteration_chain (fetch : Str → Option Html) :
    ∀ (fuel iteration : Nat) (s : NavState),
      List.Chain' (fun a b => b.1 = a.1 + 1) (runStates fetch fuel iteration s) ∧
      (runStates fetch fuel iteration s).length ≤ fuel + 1
  | 0, iteration, s => ⟨List.chain'_singleton _, by simp [runStates]⟩
  | fuel + 1, iteration, s => by
    cases hstep : navStep fetch s with
    | done o path =>
      simp only [runStates, hstep]
      exact ⟨List.chain'_singleton _, by simp⟩
    | next s' =>
      have ih := runStates_iteration_chain fetch fuel (iteration + 1) s'
      obtain ⟨tail, htail⟩ := runStates_cons fetch fuel (iteration + 1) s'
      simp only [runStates, hstep]
      constructor
      · rw [htail]
        rw [htail] at ih
        exact List.chain'_cons.mpr ⟨rfl, ih.1⟩
      · simpa using Nat.succ_le_succ ih.2

-- Scenario E: a world of endlessly novel pages.

/-- The n-th page of the novel-pages world. -/
def pageE (n : Nat) : Str := List.replicate n 'x' ++ [ 'A']

/-- Every page of the novel-pages world links exactly to the next one. -/
def scenarioEHtml (t : Str) : Html :=
  ⟨some ⟨some ⟨[⟨ "Some words".data,
    [⟨ "/wiki/".data ++ 'x' :: t, "next".data, false⟩]⟩]⟩⟩⟩

/-- The page world of scenario E: every page fetches successfully and yields one
valid link to a page never seen before. -/
def scenarioEWorld : Str → Option Html := fun t => some (scenarioEHtml t)

theorem pageE_succ (n : Nat) : pageE (n + 1) = 'x' :: pageE n := by
  simp [pageE, List.replicate_succ]

theorem pageE_mem_chars {c : Char} : ∀ (n : Nat), c ∈ pageE n → c = 'x' ∨ c = 'A'
  | 0, h => Or.inr (by simpa [pageE] using h)
  | n + 1, h => by
    rw [pageE_succ] at h
    rcases List.mem_cons.mp h with h1 | h1
    · exact Or.inl h1
    · exact pageE_mem_chars n h1

theorem pageE_not_mem {c : Char} (n : Nat) (hx : c ≠ 'x') (hA : c ≠ 'A') : c ∉ pageE n :=
  fun hm => by rcases pageE_mem_chars n hm with h | h <;> simp_all

theorem pageE_ne_target : ∀ (n : Nat), pageE n ≠ TARGET
  | 0 => by decide
  | n + 1 => by
    rw [pageE_succ, show TARGET = 'P' :: "hilosophy".data from rfl]
    intro h
    injection h with h1 _
    exact absurd h1 (by decide)

theorem pageE_length (n : Nat) : (pageE n).length = n + 1 := by
  simp [pageE]

theorem pageE_injective {n m : Nat} (h : pageE n = pageE m) : n = m := by
  have := congrArg List.length h
  rw [pageE_length, pageE_length] at this
  omega

/-- The href of the scenario E world is accepted by the link-validity filter. -/
theorem scenarioE_valid_link (t : Str) (hh : '#' ∉ t) :
    is_valid_link ( "/wiki/".data ++ 'x' :: t) = true := by
  have hmem : ('#' : Char) ∉ ( "/wiki/".data ++ 'x' :: t) := by
    intro hm
    rcases List.mem_append.mp hm with h1 | h1
    · have : ('#' : Char) ∈ ([ '/', 'w', 'i', 'k', 'i', '/'] : List Char) := h1
      simp at this
    · rcases List.mem_cons.mp h1 with h2 | h2
      · exact absurd h2 (by decide)
      · exact hh h2
  have h1 : (( "/wiki/".data ++ 'x' :: t).isEmpty) = false := rfl
  have h2 : (( "/wiki/".data).isPrefixOf ( "/wiki/".data ++ 'x' :: t)) = true :=
    isPrefixOf_append_self _ _
  have h3 : (invalid_prefixes.any fun p => p.isPrefixOf ( "/wiki/".data ++ 'x' :: t)) = false :=
    rfl
  have h4 : containsSub ( "#cite".data) ( "/wiki/".data ++ 'x' :: t) = false := by
    rw [show ( "#cite".data) = '#' :: "cite".data from rfl]
    exact containsSub_eq_false _ _ hmem
  have h5 : (( "#".data).isPrefixOf ( "/wiki/".data ++ 'x' :: t)) = false := rfl
  unfold is_valid_link
  rw [h1, h2, h3, h4, h5]
  rfl

/-- Extraction in the scenario E world always returns the single link to the
next page. -/
theorem scenarioE_extract (t : Str) (hh : '#' ∉ t) :
    find_first_valid_links (scenarioEHtml t) 2 =
      [urljoin BASE_URL ( "/wiki/".data ++ 'x' :: t)] := by
  have hv := scenarioE_valid_link t hh
  show paraLoop 2 [⟨ "Some words".data, [⟨ "/wiki/".data ++ 'x' :: t, "next".data, false⟩]⟩] [] = _
  have hpv : paraVisible ⟨ "Some words".data, [⟨ "/wiki/".data ++ 'x' :: t, "next".data, false⟩]⟩ = true :=
    rfl
  have hital : is_in_italics ⟨ "/wiki/".data ++ 'x' :: t, "next".data, false⟩ = false := rfl
  have hparen : is_in_parentheses ( "Some words".data) ( "next".data) = false := by decide
  have ha : anchorLoop ( "Some words".data) 2 [⟨ "/wiki/".data ++ 'x' :: t, "next".data, false⟩] [] =
      .inr [urljoin BASE_URL ( "/wiki/".data ++ 'x' :: t)] := by
    simp only [anchorLoop, hv, hital, hparen, Bool.not_true, Bool.false_eq_true, if_false,
      List.nil_append]
    rw [if_neg (by simp)]
  simp only [paraLoop, hpv, Bool.not_true, Bool.false_eq_true, if_false]
  rw [ha]

/-- One navigator step in the scenario E world advances from the n-th page to
the (n+1)-th, appending the n-th. -/
theorem scenarioE_step (n : Nat) (vis : List Str) (hmem : pageE n ∉ vis) :
    navStep scenarioEWorld ⟨pageE n, vis, 0⟩ = .next ⟨pageE (n + 1), vis ++ [pageE n], 0⟩ := by
  have hh : ('#' : Char) ∉ pageE n := pageE_not_mem n (by decide) (by decide)
  have hfetch : scenarioEWorld (pageE n) = some (scenarioEHtml (pageE n)) := rfl
  have hextract := scenarioE_extract (pageE n) hh
  have htitle : get_page_title_from_url (urljoin BASE_URL ( "/wiki/".data ++ 'x' :: pageE n)) =
      some ('x' :: pageE n) := by
    have hcons : ('x' :: pageE n) = pageE (n + 1) := (pageE_succ n).symm
    apply get_title_of_wiki_url ('x' :: pageE n)
    · rw [hcons]
      exact pageE_not_mem (n + 1) (by decide) (by decide)
    · rw [hcons]
      exact pageE_not_mem (n + 1) (by decide) (by decide)
    · rw [hcons]
      exact pageE_not_mem (n + 1) (by decide) (by decide)
    · rw [hcons]
      exact pageE_not_mem (n + 1) (by decide) (by decide)
  show navStep scenarioEWorld ⟨pageE n, vis, 0⟩ = _
  unfold navStep
  rw [if_neg (pageE_ne_target n)]
  simp only [show (⟨pageE n, vis, 0⟩ : NavState).currentPage = pageE n from rfl,
    show (⟨pageE n, vis, 0⟩ : NavState).visited = vis from rfl,
    show (⟨pageE n, vis, 0⟩ : NavState).linkAttempt = 0 from rfl]
  rw [if_neg hmem]
  rw [hfetch]
  simp only [hextract]
  rw [if_neg (by simp)]
  rw [htitle, ← pageE_succ]

/-- Running the scenario E world exhausts the whole iteration budget. -/
theorem scenarioE_run : ∀ (fuel n : Nat), fuel + n = MAX_ITERATIONS →
    navigateAux scenarioEWorld fuel ⟨pageE n, (List.range n).map pageE, 0⟩ =
      (.failedBudget, (List.range MAX_ITERATIONS).map pageE)
  | 0, n, h => by
    have hn : n = MAX_ITERATIONS := by omega
    subst hn
    simp only [navigateAux]
  | fuel + 1, n, h => by
    have hmem : pageE n ∉ (List.range n).map pageE := by
      intro hm
      obtain ⟨m, hmr, hme⟩ := List.mem_map.mp hm
      have : m = n := pageE_injective hme
      rw [this] at hmr
      exact absurd (List.mem_range.mp hmr) (by omega)
    have hstep := scenarioE_step n ((List.range n).map pageE) hmem
    show navigateAux scenarioEWorld (fuel + 1) _ = _
    rw [navigateAux, hstep]
    have hglue : (List.range n).map pageE ++ [pageE n] = (List.range (n + 1)).map pageE := by
      rw [List.range_succ, List.map_append, List.map_singleton]
    rw [hglue]
    exact scenarioE_run fuel (n + 1) (by omega)

/-- C8: the iteration counter advances by exactly one on every loop pass and the
trace of loop entries has at most 501 points (500 executed passes plus the budget
exit); in the scenario E world, where every page is novel and never the target,
the run exhausts the budget and ends as a budget failure with exactly 500 visited
pages. -/
theorem iteration_budget (fetch : Str → Option Html) (start : Str) :
    List.Chain' (fun a b => b.1 = a.1 + 1)
      (runStates fetch MAX_ITERATIONS 0 ⟨start, [], 0⟩) ∧
    (runStates fetch MAX_ITERATIONS 0 ⟨start, [], 0⟩).length ≤ MAX_ITERATIONS + 1 ∧
    navigate scenarioEWorld (pageE 0) =
      (.failedBudget, (List.range MAX_ITERATIONS).map pageE) ∧
    (navigate scenarioEWorld (pageE 0)).2.length = MAX_ITERATIONS := by
  have hrun : navigate scenarioEWorld (pageE 0) =
      (.failedBudget, (List.range MAX_ITERATIONS).map pageE) := by
    have h0 : ((List.range 0).map pageE) = ([] : List Str) := rfl
    have := scenarioE_run MAX_ITERATIONS 0 (by omega)
    rw [h0] at this
    exact this
  have hchain := runStates_iteration_chain fetch MAX_ITERATIONS 0 ⟨start, [], 0⟩
  refine ⟨hchain.1, hchain.2, hrun, ?_⟩
  rw [hrun]
  simp [MAX_ITERATIONS]
